import Mathlib

/-!
Verification of the core of the data.ts file editor (src/app/page.tsx):
the value tree, the source scanner, the two-tier literal decoder, the
path-addressed mutation helpers and the re-serializer.

Conventions of the embedding:
* JavaScript's duck-typed values become the `LiteralValue` variant.
* The two external parsers the decoder calls (the JSON5 library and the
  Function-constructor evaluator of `safeEval`) are not code of this
  repository; `parseDataFile` takes them as explicit function arguments
  of type `String -> Except String LiteralValue` (`Except.error` stands
  for a thrown exception, carrying its message).
* React state cells (`data`, `exportName`, `quotedKeys`,
  `originalImports`, `error`) become the fields of `EditorState`; each
  `setX` call becomes a functional record update, in the order the
  source performs them.
-/

/-- The generic value tree of the editor (spec section 3, `LiteralValue`):
JavaScript arrays, plain objects (an ordered association list, mirroring
JS enumeration order), strings, numbers (the documents of interest hold
integral numbers), booleans and null. -/
inductive LiteralValue where
  | null : LiteralValue
  | bool : Bool → LiteralValue
  | num : Int → LiteralValue
  | str : String → LiteralValue
  | arr : List LiteralValue → LiteralValue
  | obj : List (String × LiteralValue) → LiteralValue

mutual

/-- Structural (deep) equality on value trees, the "deep-equal" of the spec. -/
def LiteralValue.beq : LiteralValue → LiteralValue → Bool
  | .null, .null => true
  | .bool a, .bool b => a == b
  | .num a, .num b => a == b
  | .str a, .str b => a == b
  | .arr a, .arr b => LiteralValue.beqList a b
  | .obj a, .obj b => LiteralValue.beqEntries a b
  | _, _ => false

/-- Deep equality on element lists. -/
def LiteralValue.beqList : List LiteralValue → List LiteralValue → Bool
  | [], [] => true
  | a :: as, b :: bs => LiteralValue.beq a b && LiteralValue.beqList as bs
  | _, _ => false

/-- Deep equality on entry lists. -/
def LiteralValue.beqEntries :
    List (String × LiteralValue) → List (String × LiteralValue) → Bool
  | [], [] => true
  | (k, v) :: as, (k', v') :: bs =>
    k == k' && LiteralValue.beq v v' && LiteralValue.beqEntries as bs
  | _, _ => false

end

/-- Induction principle for the nested inductive `LiteralValue`. -/
theorem LiteralValue.inductionOn (P : LiteralValue → Prop)
    (hnull : P .null) (hbool : ∀ b, P (.bool b)) (hnum : ∀ i, P (.num i))
    (hstr : ∀ s, P (.str s))
    (harr : ∀ l, (∀ v ∈ l, P v) → P (.arr l))
    (hobj : ∀ kvs, (∀ kv ∈ kvs, P kv.2) → P (.obj kvs)) :
    ∀ v, P v
  | .null => hnull
  | .bool b => hbool b
  | .num i => hnum i
  | .str s => hstr s
  | .arr l =>
    harr l (fun v _ => LiteralValue.inductionOn P hnull hbool hnum hstr harr hobj v)
  | .obj kvs =>
    hobj kvs (fun kv _ => LiteralValue.inductionOn P hnull hbool hnum hstr harr hobj kv.2)
termination_by v => sizeOf v
decreasing_by
  · have h1 := List.sizeOf_lt_of_mem (by assumption : v ∈ l)
    simp only [LiteralValue.arr.sizeOf_spec]
    omega
  · have h1 := List.sizeOf_lt_of_mem (by assumption : kv ∈ kvs)
    have h2 : sizeOf kv.2 < sizeOf kv := by
      obtain ⟨k, v⟩ := kv
      simp only [Prod.mk.sizeOf_spec]
      omega
    simp only [LiteralValue.obj.sizeOf_spec]
    omega

theorem LiteralValue.beq_iff :
    ∀ a b : LiteralValue, (LiteralValue.beq a b = true) ↔ a = b := by
  intro a
  induction a using LiteralValue.inductionOn with
  | hnull => intro b; cases b <;> simp [LiteralValue.beq]
  | hbool x => intro b; cases b <;> simp [LiteralValue.beq]
  | hnum x => intro b; cases b <;> simp [LiteralValue.beq]
  | hstr x => intro b; cases b <;> simp [LiteralValue.beq]
  | harr l ih =>
    intro b
    cases b <;> simp only [LiteralValue.beq, LiteralValue.arr.injEq] <;>
      try simp
    case arr l' =>
      induction l generalizing l' with
      | nil => cases l' <;> simp [LiteralValue.beqList]
      | cons v vs ihl =>
        cases l' with
        | nil => simp [LiteralValue.beqList]
        | cons w ws =>
          simp only [LiteralValue.beqList, Bool.and_eq_true, List.cons.injEq]
          rw [ih v (by simp), ihl (fun x hx => ih x (by simp [hx])) ws]
  | hobj kvs ih =>
    intro b
    cases b <;> simp only [LiteralValue.beq, LiteralValue.obj.injEq] <;>
      try simp
    case obj kvs' =>
      induction kvs generalizing kvs' with
      | nil => cases kvs' <;> simp [LiteralValue.beqEntries]
      | cons kv rest ihl =>
        obtain ⟨k, v⟩ := kv
        cases kvs' with
        | nil => simp [LiteralValue.beqEntries]
        | cons kv' rest' =>
          obtain ⟨k', v'⟩ := kv'
          simp only [LiteralValue.beqEntries, Bool.and_eq_true, List.cons.injEq,
            Prod.mk.injEq, beq_iff_eq]
          rw [ih (k, v) (by simp), ihl (fun x hx => ih x (by simp [hx])) rest']

instance : DecidableEq LiteralValue := fun a b =>
  decidable_of_iff (LiteralValue.beq a b = true) (LiteralValue.beq_iff a b)

/-- Two-space indentation, `"  ".repeat(indent)` of page.tsx lines 170-171. -/
def indentOf : Nat → String
  | 0 => ""
  | n + 1 => "  " ++ indentOf n

/-- JavaScript's `Array.prototype.join(sep)`. -/
def joinSep (sep : String) : List String → String
  | [] => ""
  | [s] => s
  | s :: rest => s ++ sep ++ joinSep sep rest

mutual

/-- The re-serializer `stringify` of page.tsx lines 169-179, with the
document-wide `quotedKeys` flag passed explicitly (the source reads it
from component state). An array prints `[]` when empty, otherwise one
element per line; an object always prints its brace, a newline, the
comma-joined entries, a newline, the closing indentation and brace
(there is no emptiness check for objects in the source); a string is
wrapped in double quotes with no escaping; other scalars print via
JavaScript `String(...)`. -/
def stringify (qk : Bool) : LiteralValue → Nat → String
  | .arr l, n =>
    if l.isEmpty then "[]"
    else "[\n" ++ joinSep (",\n") (stringifyItems qk l n) ++ "\n" ++ indentOf n ++ "]"
  | .obj kvs, n =>
    "\x7b\n" ++ joinSep (",\n") (stringifyEntries qk kvs n) ++ "\n" ++ indentOf n ++ "\x7d"
  | .str s, _ => "\"" ++ s ++ "\""
  | .num i, _ => toString i
  | .bool b, _ => if b then "true" else "false"
  | .null, _ => "null"

/-- The mapped array elements of line 173: each child at one deeper
indentation, prefixed by that indentation. -/
def stringifyItems (qk : Bool) : List LiteralValue → Nat → List String
  | [], _ => []
  | v :: vs, n => (indentOf (n + 1) ++ stringify qk v (n + 1)) :: stringifyItems qk vs n

/-- The mapped object entries of lines 175-177: indentation, the key
(double-quoted when `quotedKeys`), a colon and the child. -/
def stringifyEntries (qk : Bool) : List (String × LiteralValue) → Nat → List String
  | [], _ => []
  | (k, v) :: kvs, n =>
    (indentOf (n + 1) ++ (if qk then "\"" ++ k ++ "\"" else k) ++ ": "
      ++ stringify qk v (n + 1)) :: stringifyEntries qk kvs n

end

example : stringify false (.arr []) 0 = "[]" := by rfl

example : stringify false (.arr [.num 1, .str "x"]) 0 = "[\n  1,\n  \"x\"\n]" := by rfl

example :
    stringify false (.arr [.obj [("name", .str "A")]]) 0
      = "[\n  \x7b\n    name: \"A\"\n  \x7d\n]" := by rfl

example : stringify false (.obj []) 0 = "\x7b\n\n\x7d" := by rfl

example : stringify true (.obj [("a", .num 1)]) 0 = "\x7b\n  \"a\": 1\n\x7d" := by rfl

/-! ### A line-based renderer written from the spec's rendering rules

Spec section 4.4: two-space indent per nesting level; empty `Array`/`Object`
render inline as `[]`/`{}`; non-empty composites render one child per line
with a trailing newline before the closing bracket and no trailing comma on
the last element; object keys double-quoted or bare per `quotedKeys`. The
renderer below produces the list of lines of a value, children indented
relative to their parent; `specRender` joins them with newlines. -/

/-- Append `suffix` to the last line of a block. -/
def appendToLast (suffix : String) : List String → List String
  | [] => []
  | [s] => [s ++ suffix]
  | s :: rest => s :: appendToLast suffix rest

/-- Concatenate child blocks, a comma ending every child but the last
("no trailing comma on the last element"). -/
def joinChildren : List (List String) → List String
  | [] => []
  | [c] => c
  | c :: cs => appendToLast "," c ++ joinChildren cs

/-- Glue a prefix onto the first line of a block (used for `key: ` prefixes). -/
def glueHead (p : String) : List String → List String
  | [] => [p]
  | s :: rest => (p ++ s) :: rest

mutual

/-- The lines of a value under the spec's rendering rules, each child
block indented two further spaces, one child per line, the closing
bracket on a line of its own. -/
def specLines (qk : Bool) : LiteralValue → List String
  | .arr [] => ["[]"]
  | .arr (v :: vs) =>
    "[" :: (joinChildren (specBlocks qk (v :: vs))).map (fun s => "  " ++ s) ++ ["]"]
  | .obj [] => ["\x7b\x7d"]
  | .obj (kv :: kvs) =>
    "\x7b" :: (joinChildren (specEntryBlocks qk (kv :: kvs))).map (fun s => "  " ++ s)
      ++ ["\x7d"]
  | .str s => ["\"" ++ s ++ "\""]
  | .num i => [toString i]
  | .bool b => [if b then "true" else "false"]
  | .null => ["null"]

/-- The blocks of an array's children. -/
def specBlocks (qk : Bool) : List LiteralValue → List (List String)
  | [] => []
  | v :: vs => specLines qk v :: specBlocks qk vs

/-- The blocks of an object's entries, the key glued onto each child. -/
def specEntryBlocks (qk : Bool) : List (String × LiteralValue) → List (List String)
  | [] => []
  | (k, v) :: kvs =>
    glueHead ((if qk then "\"" ++ k ++ "\"" else k) ++ ": ") (specLines qk v)
      :: specEntryBlocks qk kvs

end

/-- The spec's rendering of a whole value: its lines joined by newlines. -/
def specRender (qk : Bool) (v : LiteralValue) : String :=
  joinSep "\n" (specLines qk v)

mutual

/-- True when no subtree of the value is an empty object. -/
def noEmptyObj : LiteralValue → Bool
  | .arr l => noEmptyObjList l
  | .obj [] => false
  | .obj kvs => noEmptyObjEntries kvs
  | _ => true

/-- `noEmptyObj` over an element list. -/
def noEmptyObjList : List LiteralValue → Bool
  | [] => true
  | v :: vs => noEmptyObj v && noEmptyObjList vs

/-- `noEmptyObj` over an entry list. -/
def noEmptyObjEntries : List (String × LiteralValue) → Bool
  | [] => true
  | (_, v) :: kvs => noEmptyObj v && noEmptyObjEntries kvs

end

/-- Prefix every line after the first with the given indentation: how a
child block rendered at absolute level `n` relates to its relative lines. -/
def indentTail (n : Nat) : List String → List String
  | [] => []
  | s :: rest => s :: rest.map (fun t => indentOf n ++ t)

theorem indentOf_comm (n : Nat) : indentOf n ++ "  " = "  " ++ indentOf n := by
  induction n with
  | zero => rw [indentOf, String.empty_append, String.append_empty]
  | succ n ih => rw [indentOf, String.append_assoc, ih]

theorem indentOf_step (n : Nat) (s : String) :
    indentOf n ++ ("  " ++ s) = indentOf (n + 1) ++ s := by
  rw [← String.append_assoc, indentOf_comm]
  rfl

theorem joinSep_cons (sep a : String) (rest : List String) (h : rest ≠ []) :
    joinSep sep (a :: rest) = a ++ sep ++ joinSep sep rest := by
  cases rest with
  | nil => exact absurd rfl h
  | cons b bs => rfl

theorem joinSep_append (sep : String) (X Y : List String) (hX : X ≠ []) (hY : Y ≠ []) :
    joinSep sep (X ++ Y) = joinSep sep X ++ sep ++ joinSep sep Y := by
  induction X with
  | nil => exact absurd rfl hX
  | cons a as ih =>
    cases as with
    | nil =>
      cases Y with
      | nil => exact absurd rfl hY
      | cons y ys =>
        rw [List.cons_append, List.nil_append, joinSep_cons sep a (y :: ys) (by simp)]
        rfl
    | cons b bs =>
      rw [List.cons_append,
        joinSep_cons sep a ((b :: bs) ++ Y) (by simp),
        ih (by simp),
        joinSep_cons sep a (b :: bs) (by simp)]
      simp [String.append_assoc]

theorem appendToLast_ne_nil (z : String) (c : List String) (h : c ≠ []) :
    appendToLast z c ≠ [] := by
  cases c with
  | nil => exact absurd rfl h
  | cons a as => cases as <;> simp [appendToLast]

theorem joinSep_appendToLast (z p : String) (c : List String) (h : c ≠ []) :
    joinSep "\n" ((appendToLast z c).map (fun s => p ++ s))
      = joinSep "\n" (c.map (fun s => p ++ s)) ++ z := by
  induction c with
  | nil => exact absurd rfl h
  | cons a as ih =>
    cases as with
    | nil => simp [appendToLast, joinSep, String.append_assoc]
    | cons b bs =>
      have h2 : (appendToLast z (b :: bs)).map (fun s => p ++ s) ≠ [] := by
        simpa using appendToLast_ne_nil z (b :: bs) (by simp)
      have h3 : (b :: bs).map (fun s => p ++ s) ≠ [] := by simp
      rw [show appendToLast z (a :: b :: bs) = a :: appendToLast z (b :: bs) from rfl,
        List.map_cons,
        joinSep_cons "\n" (p ++ a) ((appendToLast z (b :: bs)).map (fun s => p ++ s)) h2,
        ih (by simp)]
      simp only [List.map_cons]
      rw [joinSep_cons "\n" (p ++ a) ((p ++ b) :: bs.map (fun s => p ++ s)) (by simp)]
      simp [String.append_assoc]

theorem specLines_ne_nil (qk : Bool) (v : LiteralValue) : specLines qk v ≠ [] := by
  cases v with
  | arr l => cases l <;> simp [specLines]
  | obj kvs => cases kvs <;> simp [specLines]
  | null => simp [specLines]
  | bool b => simp [specLines]
  | num i => simp [specLines]
  | str s => simp [specLines]

theorem joinChildren_ne_nil (c : List String) (cs : List (List String)) (h : c ≠ []) :
    joinChildren (c :: cs) ≠ [] := by
  cases cs with
  | nil => simpa [joinChildren] using h
  | cons c' cs' =>
    have : joinChildren (c :: c' :: cs') = appendToLast "," c ++ joinChildren (c' :: cs') :=
      rfl
    rw [this]
    simp [appendToLast_ne_nil "," c h]

theorem glueHead_joinSep (m : Nat) (p : String) (lines : List String) (h : lines ≠ []) :
    (indentOf m ++ p) ++ joinSep "\n" (indentTail m lines)
      = joinSep "\n" ((glueHead p lines).map (fun s => indentOf m ++ s)) := by
  cases lines with
  | nil => exact absurd rfl h
  | cons hd tl =>
    cases tl with
    | nil => simp [indentTail, glueHead, joinSep, String.append_assoc]
    | cons t ts =>
      have h2 : (t :: ts).map (fun s => indentOf m ++ s) ≠ [] := by simp
      rw [show indentTail m (hd :: t :: ts) = hd :: (t :: ts).map (fun s => indentOf m ++ s)
          from rfl,
        joinSep_cons "\n" hd ((t :: ts).map (fun s => indentOf m ++ s)) h2,
        show glueHead p (hd :: t :: ts) = (p ++ hd) :: t :: ts from rfl]
      simp only [List.map_cons]
      rw [joinSep_cons "\n" (indentOf m ++ (p ++ hd))
        ((indentOf m ++ t) :: ts.map (fun s => indentOf m ++ s)) (by simp)]
      simp [String.append_assoc]

theorem indent_joinSep (m : Nat) (lines : List String) (h : lines ≠ []) :
    indentOf m ++ joinSep "\n" (indentTail m lines)
      = joinSep "\n" (lines.map (fun s => indentOf m ++ s)) := by
  have h1 := glueHead_joinSep m "" lines h
  rw [String.append_empty] at h1
  rw [h1]
  cases lines with
  | nil => exact absurd rfl h
  | cons hd tl => rw [show glueHead "" (hd :: tl) = ("" ++ hd) :: tl from rfl,
      String.empty_append]

theorem noEmptyObjList_mem (l : List LiteralValue) (h : noEmptyObjList l = true) :
    ∀ w ∈ l, noEmptyObj w = true := by
  induction l with
  | nil => simp
  | cons v vs ih =>
    simp only [noEmptyObjList, Bool.and_eq_true] at h
    intro w hw
    rcases List.mem_cons.mp hw with hw | hw
    · exact hw ▸ h.1
    · exact ih h.2 w hw

theorem noEmptyObjEntries_mem (kvs : List (String × LiteralValue))
    (h : noEmptyObjEntries kvs = true) : ∀ kv ∈ kvs, noEmptyObj kv.2 = true := by
  induction kvs with
  | nil => simp
  | cons kv rest ih =>
    obtain ⟨k, v⟩ := kv
    simp only [noEmptyObjEntries, Bool.and_eq_true] at h
    intro kv' hkv'
    rcases List.mem_cons.mp hkv' with hkv' | hkv'
    · exact hkv' ▸ h.1
    · exact ih h.2 kv' hkv'

theorem items_eq_blocks (qk : Bool) (n : Nat) :
    ∀ l : List LiteralValue,
      (∀ w ∈ l, ∀ m, stringify qk w m = joinSep "\n" (indentTail m (specLines qk w))) →
      joinSep (",\n") (stringifyItems qk l n)
        = joinSep "\n" ((joinChildren (specBlocks qk l)).map (fun s => indentOf (n + 1) ++ s)) := by
  intro l
  induction l with
  | nil => intro _; rfl
  | cons v vs ih =>
    intro hIH
    cases vs with
    | nil =>
      rw [show stringifyItems qk [v] n = [indentOf (n + 1) ++ stringify qk v (n + 1)] from rfl,
        show joinSep (",\n") [indentOf (n + 1) ++ stringify qk v (n + 1)]
          = indentOf (n + 1) ++ stringify qk v (n + 1) from rfl,
        hIH v (by simp) (n + 1),
        show specBlocks qk [v] = [specLines qk v] from rfl,
        show joinChildren [specLines qk v] = specLines qk v from rfl]
      exact indent_joinSep (n + 1) (specLines qk v) (specLines_ne_nil qk v)
    | cons w ws =>
      have hvs : stringifyItems qk (w :: ws) n ≠ [] := by
        rw [show stringifyItems qk (w :: ws) n
            = (indentOf (n + 1) ++ stringify qk w (n + 1)) :: stringifyItems qk ws n from rfl]
        simp
      rw [show stringifyItems qk (v :: w :: ws) n
          = (indentOf (n + 1) ++ stringify qk v (n + 1)) :: stringifyItems qk (w :: ws) n
            from rfl,
        joinSep_cons (",\n") _ _ hvs,
        ih (fun x hx m => hIH x (by simp [hx]) m),
        hIH v (by simp) (n + 1),
        indent_joinSep (n + 1) (specLines qk v) (specLines_ne_nil qk v),
        show specBlocks qk (v :: w :: ws) = specLines qk v :: specBlocks qk (w :: ws) from
          rfl,
        show joinChildren (specLines qk v :: specBlocks qk (w :: ws))
          = appendToLast "," (specLines qk v) ++ joinChildren (specBlocks qk (w :: ws))
            from rfl,
        List.map_append]
      have hX : (appendToLast "," (specLines qk v)).map (fun s => indentOf (n + 1) ++ s) ≠ [] := by
        simpa using appendToLast_ne_nil "," (specLines qk v) (specLines_ne_nil qk v)
      have hY : (joinChildren (specBlocks qk (w :: ws))).map
          (fun s => indentOf (n + 1) ++ s) ≠ [] := by
        rw [show specBlocks qk (w :: ws) = specLines qk w :: specBlocks qk ws from rfl]
        simpa using joinChildren_ne_nil (specLines qk w) (specBlocks qk ws)
          (specLines_ne_nil qk w)
      rw [joinSep_append "\n" _ _ hX hY,
        joinSep_appendToLast "," (indentOf (n + 1)) (specLines qk v) (specLines_ne_nil qk v),
        show (",\n" : String) = "," ++ "\n" from rfl]
      simp [String.append_assoc]

theorem entries_eq_blocks (qk : Bool) (n : Nat) :
    ∀ kvs : List (String × LiteralValue),
      (∀ kv ∈ kvs, ∀ m,
        stringify qk kv.2 m = joinSep "\n" (indentTail m (specLines qk kv.2))) →
      joinSep (",\n") (stringifyEntries qk kvs n)
        = joinSep "\n"
            ((joinChildren (specEntryBlocks qk kvs)).map (fun s => indentOf (n + 1) ++ s)) := by
  intro kvs
  induction kvs with
  | nil => intro _; rfl
  | cons kv rest ih =>
    obtain ⟨k, v⟩ := kv
    intro hIH
    have hv := hIH (k, v) (by simp) (n + 1)
    have hglue := glueHead_joinSep (n + 1) ((if qk then "\"" ++ k ++ "\"" else k) ++ ": ")
      (specLines qk v) (specLines_ne_nil qk v)
    have hkey : indentOf (n + 1) ++ (if qk then "\"" ++ k ++ "\"" else k) ++ ": "
        ++ stringify qk v (n + 1)
        = joinSep "\n" ((glueHead ((if qk then "\"" ++ k ++ "\"" else k) ++ ": ")
            (specLines qk v)).map (fun s => indentOf (n + 1) ++ s)) := by
      rw [← hglue, ← hv]
      simp [String.append_assoc]
    cases rest with
    | nil =>
      rw [show stringifyEntries qk [(k, v)] n
          = [indentOf (n + 1) ++ (if qk then "\"" ++ k ++ "\"" else k) ++ ": "
              ++ stringify qk v (n + 1)] from rfl,
        show specEntryBlocks qk [(k, v)]
          = [glueHead ((if qk then "\"" ++ k ++ "\"" else k) ++ ": ") (specLines qk v)]
            from rfl,
        show joinChildren [glueHead ((if qk then "\"" ++ k ++ "\"" else k) ++ ": ")
            (specLines qk v)]
          = glueHead ((if qk then "\"" ++ k ++ "\"" else k) ++ ": ") (specLines qk v)
            from rfl]
      exact hkey
    | cons kv' rest' =>
      have hglueNil : ∀ (p : String) (w : LiteralValue), glueHead p (specLines qk w) ≠ [] := by
        intro p w
        cases hsp : specLines qk w with
        | nil => exact absurd hsp (specLines_ne_nil qk w)
        | cons a as => simp [glueHead]
      have hvs : stringifyEntries qk (kv' :: rest') n ≠ [] := by
        obtain ⟨k', v'⟩ := kv'
        rw [show stringifyEntries qk ((k', v') :: rest') n
            = (indentOf (n + 1) ++ (if qk then "\"" ++ k' ++ "\"" else k') ++ ": "
                ++ stringify qk v' (n + 1)) :: stringifyEntries qk rest' n from rfl]
        simp
      rw [show stringifyEntries qk ((k, v) :: kv' :: rest') n
          = (indentOf (n + 1) ++ (if qk then "\"" ++ k ++ "\"" else k) ++ ": "
              ++ stringify qk v (n + 1)) :: stringifyEntries qk (kv' :: rest') n from rfl,
        joinSep_cons (",\n") _ _ hvs,
        ih (fun x hx m => hIH x (by simp [hx]) m),
        hkey,
        show specEntryBlocks qk ((k, v) :: kv' :: rest')
          = glueHead ((if qk then "\"" ++ k ++ "\"" else k) ++ ": ") (specLines qk v)
              :: specEntryBlocks qk (kv' :: rest') from rfl,
        show joinChildren (glueHead ((if qk then "\"" ++ k ++ "\"" else k) ++ ": ")
              (specLines qk v) :: specEntryBlocks qk (kv' :: rest'))
          = appendToLast ","
              (glueHead ((if qk then "\"" ++ k ++ "\"" else k) ++ ": ") (specLines qk v))
              ++ joinChildren (specEntryBlocks qk (kv' :: rest')) from rfl,
        List.map_append]
      have hX : (appendToLast ","
          (glueHead ((if qk then "\"" ++ k ++ "\"" else k) ++ ": ") (specLines qk v))).map
            (fun s => indentOf (n + 1) ++ s) ≠ [] := by
        simpa using appendToLast_ne_nil "," _ (hglueNil _ v)
      have hY : (joinChildren (specEntryBlocks qk (kv' :: rest'))).map
          (fun s => indentOf (n + 1) ++ s) ≠ [] := by
        obtain ⟨k', v'⟩ := kv'
        rw [show specEntryBlocks qk ((k', v') :: rest')
            = glueHead ((if qk then "\"" ++ k' ++ "\"" else k') ++ ": ") (specLines qk v')
                :: specEntryBlocks qk rest' from rfl]
        simpa using joinChildren_ne_nil _ (specEntryBlocks qk rest') (hglueNil _ v')
      rw [joinSep_append "\n" _ _ hX hY,
        joinSep_appendToLast "," (indentOf (n + 1)) _ (hglueNil _ v),
        show (",\n" : String) = "," ++ "\n" from rfl]
      simp [String.append_assoc]

theorem indentTail_zero (lines : List String) : indentTail 0 lines = lines := by
  cases lines with
  | nil => rfl
  | cons s rest =>
    simp [indentTail, indentOf, String.empty_append]

theorem stringify_eq_lines (qk : Bool) :
    ∀ v : LiteralValue, noEmptyObj v = true →
      ∀ n, stringify qk v n = joinSep "\n" (indentTail n (specLines qk v)) := by
  intro v
  induction v using LiteralValue.inductionOn with
  | hnull => intro _ n; rfl
  | hbool b => intro _ n; cases b <;> rfl
  | hnum i => intro _ n; rfl
  | hstr s => intro _ n; rfl
  | harr l ih =>
    intro hno n
    cases l with
    | nil => rfl
    | cons v vs =>
      have hmem : ∀ w ∈ v :: vs, noEmptyObj w = true := by
        refine noEmptyObjList_mem _ ?_
        simpa only [noEmptyObj] using hno
      have hIH : ∀ w ∈ v :: vs, ∀ m,
          stringify qk w m = joinSep "\n" (indentTail m (specLines qk w)) :=
        fun w hw m => ih w hw (hmem w hw) m
      rw [show stringify qk (.arr (v :: vs)) n
          = "[\n" ++ joinSep (",\n") (stringifyItems qk (v :: vs) n) ++ "\n"
            ++ indentOf n ++ "]" from rfl,
        items_eq_blocks qk n (v :: vs) hIH,
        show specLines qk (.arr (v :: vs))
          = "[" :: (joinChildren (specBlocks qk (v :: vs))).map (fun s => "  " ++ s)
            ++ ["]"] from rfl,
        show indentTail n ("[" :: (joinChildren (specBlocks qk (v :: vs))).map
              (fun s => "  " ++ s) ++ ["]"])
          = "[" :: ((joinChildren (specBlocks qk (v :: vs))).map (fun s => "  " ++ s)
              ++ ["]"]).map (fun t => indentOf n ++ t) from rfl,
        List.map_append, List.map_map]
      have hcomp : ((fun t => indentOf n ++ t) ∘ fun s => "  " ++ s)
          = fun s => indentOf (n + 1) ++ s := by
        funext s
        exact indentOf_step n s
      rw [hcomp]
      have hY : (joinChildren (specBlocks qk (v :: vs))).map
          (fun s => indentOf (n + 1) ++ s) ≠ [] := by
        rw [show specBlocks qk (v :: vs) = specLines qk v :: specBlocks qk vs from rfl]
        simpa using joinChildren_ne_nil (specLines qk v) (specBlocks qk vs)
          (specLines_ne_nil qk v)
      rw [joinSep_cons "\n" "[" _ (by simp [hY]),
        joinSep_append "\n" _ _ hY (by simp),
        show List.map (fun t => indentOf n ++ t) (["]"] : List String)
          = [indentOf n ++ "]"] from rfl,
        show joinSep "\n" [indentOf n ++ "]"] = indentOf n ++ "]" from rfl,
        show ("[\n" : String) = "[" ++ "\n" from rfl]
      simp [String.append_assoc]
  | hobj kvs ih =>
    intro hno n
    cases kvs with
    | nil => simp [noEmptyObj] at hno
    | cons kv rest =>
      have hmem : ∀ x ∈ kv :: rest, noEmptyObj x.2 = true := by
        refine noEmptyObjEntries_mem _ ?_
        simpa only [noEmptyObj] using hno
      have hIH : ∀ x ∈ kv :: rest, ∀ m,
          stringify qk x.2 m = joinSep "\n" (indentTail m (specLines qk x.2)) :=
        fun x hx m => ih x hx (hmem x hx) m
      rw [show stringify qk (.obj (kv :: rest)) n
          = "\x7b\n" ++ joinSep (",\n") (stringifyEntries qk (kv :: rest) n) ++ "\n"
            ++ indentOf n ++ "\x7d" from rfl,
        entries_eq_blocks qk n (kv :: rest) hIH,
        show specLines qk (.obj (kv :: rest))
          = "\x7b" :: (joinChildren (specEntryBlocks qk (kv :: rest))).map
              (fun s => "  " ++ s) ++ ["\x7d"] from rfl,
        show indentTail n ("\x7b" :: (joinChildren (specEntryBlocks qk (kv :: rest))).map
              (fun s => "  " ++ s) ++ ["\x7d"])
          = "\x7b" :: ((joinChildren (specEntryBlocks qk (kv :: rest))).map
              (fun s => "  " ++ s) ++ ["\x7d"]).map (fun t => indentOf n ++ t) from rfl,
        List.map_append, List.map_map]
      have hcomp : ((fun t => indentOf n ++ t) ∘ fun s => "  " ++ s)
          = fun s => indentOf (n + 1) ++ s := by
        funext s
        exact indentOf_step n s
      rw [hcomp]
      have hglueNil : ∀ (k : String) (v : LiteralValue),
          glueHead ((if qk then "\"" ++ k ++ "\"" else k) ++ ": ") (specLines qk v) ≠ [] := by
        intro k v
        cases hsp : specLines qk v with
        | nil => exact absurd hsp (specLines_ne_nil qk v)
        | cons a as => simp [glueHead]
      have hY : (joinChildren (specEntryBlocks qk (kv :: rest))).map
          (fun s => indentOf (n + 1) ++ s) ≠ [] := by
        obtain ⟨k, v⟩ := kv
        rw [show specEntryBlocks qk ((k, v) :: rest)
            = glueHead ((if qk then "\"" ++ k ++ "\"" else k) ++ ": ") (specLines qk v)
                :: specEntryBlocks qk rest from rfl]
        simpa using joinChildren_ne_nil _ (specEntryBlocks qk rest) (hglueNil k v)
      rw [joinSep_cons "\n" "\x7b" _ (by simp [hY]),
        joinSep_append "\n" _ _ hY (by simp),
        show List.map (fun t => indentOf n ++ t) (["\x7d"] : List String)
          = [indentOf n ++ "\x7d"] from rfl,
        show joinSep "\n" [indentOf n ++ "\x7d"] = indentOf n ++ "\x7d" from rfl,
        show ("\x7b\n" : String) = "\x7b" ++ "\n" from rfl]
      simp [String.append_assoc]

/-- C8 (amended): on every value tree with no empty-object subtree the
re-serializer follows the spec's rendering rules exactly — `specRender` is
written from those rules: two-space indent per nesting level, empty array
inline as square brackets, one child per line, a trailing newline before the
closing bracket, no trailing comma on the last element, keys quoted per the
document flag. An empty object, however, renders as an opening brace, a bare
blank line and the closing brace at the parent's indentation — not inline. -/
theorem stringify_spec_rendering (qk : Bool) (v : LiteralValue) (n : Nat)
    (h : noEmptyObj v = true) :
    stringify qk v 0 = specRender qk v ∧
      stringify qk (.obj []) n = "\x7b\n\n" ++ indentOf n ++ "\x7d" := by
  constructor
  · rw [stringify_eq_lines qk v h 0, specRender, indentTail_zero]
  · rw [show stringify qk (.obj []) n
        = "\x7b\n" ++ joinSep (",\n") (stringifyEntries qk [] n) ++ "\n"
          ++ indentOf n ++ "\x7d" from rfl,
      show joinSep (",\n") (stringifyEntries qk [] n) = "" from rfl,
      String.append_empty,
      show ("\x7b\n" : String) ++ "\n" = "\x7b\n\n" from rfl]

/-- C8 counterexample: the claim states an empty Object renders inline as a
brace pair, as `specRender` does; `stringify` instead emits a brace, a blank
line and a closing brace. -/
theorem stringify_empty_obj_counterexample :
    stringify false (.obj []) 0 = "\x7b\n\n\x7d" ∧
      specRender false (.obj []) = "\x7b\x7d" ∧
      ("\x7b\n\n\x7d" : String) ≠ "\x7b\x7d" :=
  ⟨rfl, rfl, by decide⟩

/-- Witness for `stringify_spec_rendering` at a concrete two-item document. -/
theorem stringify_spec_rendering_witness :
    noEmptyObj (.arr [.obj [("a", .num 1)], .str "x"]) = true ∧
      stringify false (.arr [.obj [("a", .num 1)], .str "x"]) 0
        = specRender false (.arr [.obj [("a", .num 1)], .str "x"]) :=
  ⟨by decide,
    (stringify_spec_rendering false (.arr [.obj [("a", .num 1)], .str "x"]) 1 (by decide)).1⟩

/-! ### Round-trip: reading a serialized string scalar back

The decoder hands string literals to the JavaScript engine (tier 1 through
the JSON5 grammar, tier 2 through `safeEval`'s Function constructor), which
is not code of this repository. Modelled from the spec: both decode tiers
interpret a double-quoted string literal under the JavaScript escape rules
(a backslash starts an escape: `\b` is backspace, `\n` newline, and so on),
and an unescaped line break inside a string literal is a syntax error. -/

/-- JavaScript's single-character escapes (the ones without hex digits). -/
def escChar (c : Char) : Char :=
  if c = 'b' then Char.ofNat 8
  else if c = 'n' then '\n'
  else if c = 't' then '\t'
  else if c = 'r' then '\r'
  else if c = 'f' then Char.ofNat 12
  else if c = 'v' then Char.ofNat 11
  else if c = '0' then Char.ofNat 0
  else c

/-- Modelled from the spec: read the body of a double-quoted JavaScript
string literal up to its closing quote, applying escape rules; returns the
decoded string and the remaining characters, or `none` on a syntax error. -/
def readJsStringAux : List Char → Option (String × List Char)
  | [] => none
  | '"' :: rest => some ("", rest)
  | '\\' :: c :: rest =>
    (readJsStringAux rest).map (fun p => (String.mk (escChar c :: p.1.data), p.2))
  | ['\\'] => none
  | '\n' :: _ => none
  | c :: rest =>
    (readJsStringAux rest).map (fun p => (String.mk (c :: p.1.data), p.2))

/-- Modelled from the spec: read a double-quoted JavaScript string literal. -/
def readJsString : List Char → Option (String × List Char)
  | '"' :: rest => readJsStringAux rest
  | _ => none

/-- C1 (code_bug evidence): the one-element document holding the string
a-backslash-b re-serializes with the backslash unescaped, so reading the
emitted scalar back under the JavaScript string-literal rules (used by both
decode tiers) yields a-backspace, not the original string: decoding the
Re-serializer's output is not deep-equal to the document it printed. -/
theorem roundtrip_backslash_bug :
    stringify false (.arr [.str "a\\b"]) 0 = "[\n  \"a\\b\"\n]" ∧
      readJsString ((stringify false (.str "a\\b") 1).data) = some ("a\x08", []) ∧
      ("a\x08" : String) ≠ "a\\b" :=
  ⟨rfl, rfl, by decide⟩

/-! ### The delete protocol -/

/-- The delete protocol's state: the document rows (`data`) and the
`deletingItems` pending set of page.tsx line 47 — a `Set<number>` of raw
positional indices, modelled as an insertion-ordered duplicate-free list. -/
structure DeleteState where
  data : List LiteralValue
  deletingItems : List Nat
deriving DecidableEq

/-- JavaScript `Set.prototype.add` on the index set. -/
def setAdd (s : List Nat) (x : Nat) : List Nat :=
  if x ∈ s then s else s ++ [x]

/-- JavaScript `Set.prototype.delete` on the index set. -/
def setDel (s : List Nat) (x : Nat) : List Nat :=
  s.filter (fun y => y ≠ x)

/-- `prev.filter((_, i) => i !== idx)` of page.tsx line 158: keep every
element whose running position differs from `idx`; `i0` is the position of
the current head. -/
def filterIdxNe : List LiteralValue → Nat → Nat → List LiteralValue
  | [], _, _ => []
  | a :: as, i0, idx =>
    if i0 = idx then filterIdxNe as (i0 + 1) idx
    else a :: filterIdxNe as (i0 + 1) idx

/-- `deleteItem` (page.tsx 155-156): mark the raw index as pending removal. -/
def deleteItemStart (st : DeleteState) (idx : Nat) : DeleteState :=
  { st with deletingItems := setAdd st.deletingItems idx }

/-- The timeout body of `deleteItem` (page.tsx 157-164): when the delay
elapses, splice out the element at the recorded raw index and remove that
index from the pending set. -/
def deleteItemResolve (st : DeleteState) (idx : Nat) : DeleteState :=
  { data := filterIdxNe st.data 0 idx,
    deletingItems := setDel st.deletingItems idx }

/-- C5 (code_bug evidence): pending removals are tracked by raw index, not
by a stable per-item identity. Deleting indices 0 and 1 of a three-item
document and letting both timers fire removes elements "a" and "c", leaving
["b"] — the splice for index 1 lands on the shifted array, so the item it
removes is not the item that was scheduled ("b"), and the expected result
["c"] is never reached. Meanwhile, scheduling indices 2 and 0 and resolving
only index 0 leaves the pending set holding index 2 while the array has two
elements — a stale pending-removal identity for an index that no longer
exists. -/
theorem deleteItem_index_tracking_bug :
    (deleteItemResolve (deleteItemResolve (deleteItemStart (deleteItemStart
        ⟨[.str "a", .str "b", .str "c"], []⟩ 0) 1) 0) 1).data = [.str "b"] ∧
      ([.str "b"] : List LiteralValue) ≠ [.str "c"] ∧
      (deleteItemResolve (deleteItemStart (deleteItemStart
        ⟨[.str "a", .str "b", .str "c"], []⟩ 2) 0) 0).deletingItems = [2] ∧
      (deleteItemResolve (deleteItemStart (deleteItemStart
        ⟨[.str "a", .str "b", .str "c"], []⟩ 2) 0) 0).data.length = 2 :=
  ⟨rfl, by decide, rfl, rfl⟩

/-! ### Appending an item -/

/-- JavaScript `Object.keys` on an arbitrary value, as called at page.tsx
line 151 (`Object.keys(prev[0] ?? {})`): an object's own keys in insertion
order, index strings for an array or a string, and none for the remaining
primitives (`null` and an absent first element are replaced by an empty
object by the nullish coalescing before the call). -/
def jsObjectKeys : LiteralValue → List String
  | .obj kvs => kvs.map (fun kv => kv.1)
  | .arr l => (List.range l.length).map (fun i => toString i)
  | .str s => (List.range s.length).map (fun i => toString i)
  | _ => []

/-- `addItem` (page.tsx 149-153): append one item built by
`Object.fromEntries(Object.keys(prev[0] ?? {}).map((k) => [k, ""]))`. -/
def addItem (data : List LiteralValue) : List LiteralValue :=
  data ++ [.obj ((jsObjectKeys (data.headD .null)).map (fun k => (k, .str "")))]

/-- The claim's notion of a value's key set: the data model gives keys to
`Object` values only (spec section 3). -/
def specKeySet : LiteralValue → List String
  | .obj kvs => kvs.map (fun kv => kv.1)
  | _ => []

/-- C10 counterexample: with root `["ab"]` — first element a String, not an
Object — `addItem` appends an object keyed by the string's character
indices, while the first element's key set in the data model is empty, so
the appended item's key set does not equal the first element's key set. -/
theorem addItem_string_first_counterexample :
    (addItem [.str "ab"]).getLast? = some (.obj [("0", .str ""), ("1", .str "")]) ∧
      specKeySet (.str "ab") = [] ∧ (["0", "1"] : List String) ≠ [] :=
  ⟨rfl, rfl, by decide⟩

/-- C10 (amended): `addItem` appends exactly one new last item, leaving the
existing rows unchanged; the new item is an Object whose keys are the
JavaScript `Object.keys` of the root's first element and whose values are
all the empty String. When the first element is an Object this is its key
list (the claim's reading); when the root is empty the new item has no keys;
when the first element is an Array or a String the keys are its index
strings instead. -/
theorem addItem_schema (data : List LiteralValue) :
    (addItem data).take data.length = data ∧
      (addItem data).getLast?
        = some (.obj ((jsObjectKeys (data.headD .null)).map (fun k => (k, .str "")))) ∧
      (∀ kvs, data.head? = some (.obj kvs) →
        (addItem data).getLast? = some (.obj (kvs.map (fun kv => (kv.1, .str ""))))) ∧
      (data = [] → (addItem data).getLast? = some (.obj [])) := by
  refine ⟨?_, ?_, ?_, ?_⟩
  · rw [addItem, List.take_left]
  · rw [addItem, List.getLast?_concat]
  · intro kvs hk
    cases data with
    | nil => simp at hk
    | cons a rest =>
      simp only [List.head?_cons, Option.some.injEq] at hk
      subst hk
      rw [addItem, List.getLast?_concat]
      simp [jsObjectKeys, List.headD, List.map_map, Function.comp]
  · intro h
    subst h
    rfl

/-! ### Path-addressed mutation -/

/-- JavaScript property lookup on an object's entry list (first match). -/
def lookupKey : List (String × LiteralValue) → String → Option LiteralValue
  | [], _ => none
  | (k', v) :: rest, k => if k' = k then some v else lookupKey rest k

/-- JavaScript property assignment on an object's entry list: an existing
key keeps its position, a new key is appended (JS insertion order). -/
def setKey : List (String × LiteralValue) → String → LiteralValue →
    List (String × LiteralValue)
  | [], k, v => [(k, v)]
  | (k', v') :: rest, k, v =>
    if k' = k then (k, v) :: rest else (k', v') :: setKey rest k v

/-- A string key reaches a JavaScript array element exactly when it is the
canonical decimal numeral of a position. -/
def parseIndex (s : String) : Option Nat :=
  match s.toNat? with
  | some n => if s = toString n then some n else none
  | none => none

/-- The property read `ref[path[i]]` of page.tsx line 144 on a container. -/
def childAt : LiteralValue → String → Option LiteralValue
  | .obj kvs, k => lookupKey kvs k
  | .arr l, k => (parseIndex k).bind (fun i => l.get? i)
  | _, _ => none

/-- The final assignment `ref[path.at(-1)] = value` of page.tsx line 145 on
a container: an object updates or inserts the key; an array replaces the
element at a canonical in-range index, or appends when the index equals the
length; any other assignment would not address an element and is rejected. -/
def setChild : LiteralValue → String → LiteralValue → Option LiteralValue
  | .obj kvs, k, v => some (.obj (setKey kvs k v))
  | .arr l, k, v =>
    match parseIndex k with
    | some i =>
      if i < l.length then some (.arr (l.set i v))
      else if i = l.length then some (.arr (l ++ [v]))
      else none
    | none => none
  | _, _, _ => none

/-- The walk of `updateNestedValue` (page.tsx 143-145) inside one row:
resolve every segment but the last, assign at the last. The source mutates
the deep clone in place; the pure model rebuilds the spine. An empty path
(which the source would turn into a write at the key "undefined") and a
segment that fails to resolve yield `none`. -/
def updateNested : LiteralValue → List String → LiteralValue → Option LiteralValue
  | _, [], _ => none
  | r, [k], v => setChild r k v
  | r, k :: rest, v =>
    (childAt r k).bind fun c =>
      (updateNested c rest v).bind fun c' => setChild r k c'

/-- `updateNestedValue` (page.tsx 140-147): `structuredClone` the rows, walk
into row `itemIdx`, assign along `path`; in the pure model the clone is the
identity and the mutation is a functional update of the addressed row. -/
def updateNestedValue (data : List LiteralValue) (itemIdx : Nat) (path : List String)
    (v : LiteralValue) : Option (List LiteralValue) :=
  (data.get? itemIdx).bind fun r =>
    (updateNested r path v).map fun r' => data.set itemIdx r'

/-- Modelled from the spec: `read(doc, path)` of section 4.3 resolves each
segment through an existing Object key or Array index (the source has no
standalone read function; its render layer walks the same `ref[k]` chain). -/
def readPath : LiteralValue → List String → Option LiteralValue
  | r, [] => some r
  | r, k :: rest => (childAt r k).bind fun c => readPath c rest

/-- Reading inside one row of the document. -/
def readItemPath (data : List LiteralValue) (itemIdx : Nat) (path : List String) :
    Option LiteralValue :=
  (data.get? itemIdx).bind fun r => readPath r path

theorem lookupKey_setKey_same (kvs : List (String × LiteralValue)) (k : String)
    (v : LiteralValue) : lookupKey (setKey kvs k v) k = some v := by
  induction kvs with
  | nil => simp [setKey, lookupKey]
  | cons kv rest ih =>
    obtain ⟨k', v'⟩ := kv
    by_cases h : k' = k
    · simp [setKey, h, lookupKey]
    · simp [setKey, h, lookupKey, ih]

theorem lookupKey_setKey_other (kvs : List (String × LiteralValue)) (k k' : String)
    (v : LiteralValue) (h : k' ≠ k) :
    lookupKey (setKey kvs k v) k' = lookupKey kvs k' := by
  induction kvs with
  | nil =>
    have hne : k ≠ k' := fun hh => h hh.symm
    simp [setKey, lookupKey, hne]
  | cons kv rest ih =>
    obtain ⟨k0, v0⟩ := kv
    by_cases h0 : k0 = k
    · subst h0
      have hne : k0 ≠ k' := fun hh => h hh.symm
      simp [setKey, lookupKey, hne]
    · simp [setKey, h0, lookupKey, ih]

theorem parseIndex_canon (s : String) (n : Nat) (h : parseIndex s = some n) :
    s = toString n := by
  unfold parseIndex at h
  cases hs : s.toNat? with
  | none => rw [hs] at h; exact absurd h (by simp)
  | some m =>
    rw [hs] at h
    dsimp only at h
    by_cases he : s = toString m
    · rw [if_pos he] at h
      obtain rfl : m = n := by simpa using h
      exact he
    · rw [if_neg he] at h
      exact absurd h (by simp)

theorem get?_set_self {α : Type} (l : List α) (i : Nat) (v : α) (h : i < l.length) :
    (l.set i v).get? i = some v := by
  rw [List.get?_eq_getElem?, List.getElem?_set_self]
  simp [List.getElem?_eq_getElem, h]

theorem get?_set_other {α : Type} (l : List α) (i j : Nat) (v : α) (h : i ≠ j) :
    (l.set i v).get? j = l.get? j := by
  simp [List.get?_eq_getElem?, List.getElem?_set_ne h]

theorem get?_concat_self {α : Type} (l : List α) (v : α) :
    (l ++ [v]).get? l.length = some v := by
  simp [List.get?_eq_getElem?, List.getElem?_concat_length]

theorem get?_concat_other {α : Type} (l : List α) (j : Nat) (v : α) (h : j ≠ l.length) :
    (l ++ [v]).get? j = l.get? j := by
  by_cases hlt : j < l.length
  · simp [List.get?_eq_getElem?, List.getElem?_append, hlt]
  · have h1 : l.length ≤ j := Nat.le_of_not_lt hlt
    have h2 : (l ++ [v]).length ≤ j := by
      rw [List.length_append]
      simp only [List.length_cons, List.length_nil]
      omega
    simp [List.get?_eq_getElem?, List.getElem?_eq_none h1, List.getElem?_eq_none h2]

theorem setChild_childAt_same (r r' : LiteralValue) (k : String) (v : LiteralValue)
    (h : setChild r k v = some r') : childAt r' k = some v := by
  cases r with
  | obj kvs =>
    simp only [setChild, Option.some.injEq] at h
    subst h
    simp [childAt, lookupKey_setKey_same]
  | arr l =>
    simp only [setChild] at h
    cases hp : parseIndex k with
    | none => rw [hp] at h; exact absurd h (by simp)
    | some i =>
      rw [hp] at h
      dsimp only at h
      by_cases hlt : i < l.length
      · rw [if_pos hlt] at h
        obtain rfl : LiteralValue.arr (l.set i v) = r' := by simpa using h
        simp only [childAt, hp, Option.some_bind]
        exact get?_set_self l i v hlt
      · rw [if_neg hlt] at h
        by_cases heq : i = l.length
        · rw [if_pos heq] at h
          obtain rfl : LiteralValue.arr (l ++ [v]) = r' := by simpa using h
          simp only [childAt, hp, Option.some_bind]
          rw [heq]
          exact get?_concat_self l v
        · rw [if_neg heq] at h
          exact absurd h (by simp)
  | null => exact absurd h (by simp [setChild])
  | bool b => exact absurd h (by simp [setChild])
  | num i => exact absurd h (by simp [setChild])
  | str s => exact absurd h (by simp [setChild])

theorem setChild_childAt_other (r r' : LiteralValue) (k : String) (v : LiteralValue)
    (h : setChild r k v = some r') (k' : String) (hne : k' ≠ k) :
    childAt r' k' = childAt r k' := by
  cases r with
  | obj kvs =>
    simp only [setChild, Option.some.injEq] at h
    subst h
    simp [childAt, lookupKey_setKey_other kvs k k' v hne]
  | arr l =>
    simp only [setChild] at h
    cases hp : parseIndex k with
    | none => rw [hp] at h; exact absurd h (by simp)
    | some i =>
      rw [hp] at h
      dsimp only at h
      have hij : ∀ j, parseIndex k' = some j → j ≠ i := by
        intro j hj hji
        subst hji
        exact hne ((parseIndex_canon k' j hj).trans (parseIndex_canon k j hp).symm)
      by_cases hlt : i < l.length
      · rw [if_pos hlt] at h
        obtain rfl : LiteralValue.arr (l.set i v) = r' := by simpa using h
        simp only [childAt]
        cases hq : parseIndex k' with
        | none => rfl
        | some j =>
          simp only [Option.some_bind]
          exact get?_set_other l i j v (fun hh => hij j hq hh.symm)
      · rw [if_neg hlt] at h
        by_cases heq : i = l.length
        · rw [if_pos heq] at h
          obtain rfl : LiteralValue.arr (l ++ [v]) = r' := by simpa using h
          simp only [childAt]
          cases hq : parseIndex k' with
          | none => rfl
          | some j =>
            simp only [Option.some_bind]
            exact get?_concat_other l j v (heq ▸ hij j hq)
        · rw [if_neg heq] at h
          exact absurd h (by simp)
  | null => exact absurd h (by simp [setChild])
  | bool b => exact absurd h (by simp [setChild])
  | num i => exact absurd h (by simp [setChild])
  | str s => exact absurd h (by simp [setChild])

theorem updateNested_read (v : LiteralValue) :
    ∀ (p : List String) (r r' : LiteralValue),
      updateNested r p v = some r' → readPath r' p = some v := by
  intro p
  induction p with
  | nil =>
    intro r r' h
    exact absurd h (by simp [updateNested])
  | cons k rest ih =>
    intro r r' h
    cases rest with
    | nil =>
      rw [show updateNested r [k] v = setChild r k v from rfl] at h
      rw [show readPath r' [k] = (childAt r' k).bind (fun c => readPath c []) from rfl,
        setChild_childAt_same r r' k v h]
      rfl
    | cons k2 rest2 =>
      rw [show updateNested r (k :: k2 :: rest2) v
          = (childAt r k).bind (fun c => (updateNested c (k2 :: rest2) v).bind
              (fun c' => setChild r k c')) from rfl] at h
      cases hc : childAt r k with
      | none => rw [hc] at h; exact absurd h (by simp)
      | some c =>
        rw [hc] at h
        simp only [Option.some_bind] at h
        cases hu : updateNested c (k2 :: rest2) v with
        | none => rw [hu] at h; exact absurd h (by simp)
        | some c' =>
          rw [hu] at h
          have h' : setChild r k c' = some r' := by simpa using h
          rw [show readPath r' (k :: k2 :: rest2)
              = (childAt r' k).bind (fun c0 => readPath c0 (k2 :: rest2)) from rfl,
            setChild_childAt_same r r' k c' h']
          simpa using ih c c' hu

theorem updateNested_frame (v : LiteralValue) :
    ∀ (p : List String) (r r' : LiteralValue),
      updateNested r p v = some r' →
      ∀ q : List String, p.isPrefixOf q = false → q.isPrefixOf p = false →
        readPath r' q = readPath r q := by
  intro p
  induction p with
  | nil =>
    intro r r' h
    exact absurd h (by simp [updateNested])
  | cons k rest ih =>
    intro r r' h q hpq hqp
    cases q with
    | nil => simp [List.isPrefixOf] at hqp
    | cons k' q' =>
      rw [show readPath r' (k' :: q') = (childAt r' k').bind (fun c0 => readPath c0 q')
          from rfl,
        show readPath r (k' :: q') = (childAt r k').bind (fun c0 => readPath c0 q')
          from rfl]
      by_cases hk : k = k'
      · subst hk
        have hpq' : rest.isPrefixOf q' = false := by
          simpa [List.isPrefixOf] using hpq
        have hqp' : q'.isPrefixOf rest = false := by
          simpa [List.isPrefixOf] using hqp
        cases rest with
        | nil => simp [List.isPrefixOf] at hpq'
        | cons k2 rest2 =>
          rw [show updateNested r (k :: k2 :: rest2) v
              = (childAt r k).bind (fun c => (updateNested c (k2 :: rest2) v).bind
                  (fun c' => setChild r k c')) from rfl] at h
          cases hc : childAt r k with
          | none => rw [hc] at h; exact absurd h (by simp)
          | some c =>
            rw [hc] at h
            simp only [Option.some_bind] at h
            cases hu : updateNested c (k2 :: rest2) v with
            | none => rw [hu] at h; exact absurd h (by simp)
            | some c' =>
              rw [hu] at h
              have h' : setChild r k c' = some r' := by simpa using h
              rw [setChild_childAt_same r r' k c' h']
              simpa using ih c c' hu q' hpq' hqp'
      · have hrw : childAt r' k' = childAt r k' := by
          cases rest with
          | nil =>
            have h' : setChild r k v = some r' := by
              simpa [show updateNested r [k] v = setChild r k v from rfl] using h
            exact setChild_childAt_other r r' k v h' k' (fun hh => hk hh.symm)
          | cons k2 rest2 =>
            rw [show updateNested r (k :: k2 :: rest2) v
                = (childAt r k).bind (fun c => (updateNested c (k2 :: rest2) v).bind
                    (fun c' => setChild r k c')) from rfl] at h
            cases hc : childAt r k with
            | none => rw [hc] at h; exact absurd h (by simp)
            | some c =>
              rw [hc] at h
              simp only [Option.some_bind] at h
              cases hu : updateNested c (k2 :: rest2) v with
              | none => rw [hu] at h; exact absurd h (by simp)
              | some c' =>
                rw [hu] at h
                have h' : setChild r k c' = some r' := by simpa using h
                exact setChild_childAt_other r r' k c' h' k' (fun hh => hk hh.symm)
        rw [hrw]

/-- C6: mutation locality. Whenever `updateNestedValue` succeeds (the path
is valid: the row exists, every intermediate segment resolves, the final
segment addresses an element or a fresh object key), reading the written
path back yields exactly the written value; every other row is unchanged;
and every path of the same row that neither extends nor is a prefix of the
written path reads the same value as before. The prior document value
itself is untouched — the source deep-clones with `structuredClone` before
mutating, which the pure model renders by returning a new list. -/
theorem updateNestedValue_locality (data data' : List LiteralValue) (itemIdx : Nat)
    (path : List String) (v : LiteralValue)
    (h : updateNestedValue data itemIdx path v = some data') :
    readItemPath data' itemIdx path = some v ∧
      (∀ j, j ≠ itemIdx → data'.get? j = data.get? j) ∧
      (∀ q : List String, path.isPrefixOf q = false → q.isPrefixOf path = false →
        readItemPath data' itemIdx q = readItemPath data itemIdx q) := by
  unfold updateNestedValue at h
  cases hr : data.get? itemIdx with
  | none => rw [hr] at h; exact absurd h (by simp)
  | some r =>
    rw [hr] at h
    simp only [Option.some_bind] at h
    cases hu : updateNested r path v with
    | none => rw [hu] at h; exact absurd h (by simp)
    | some r' =>
      rw [hu] at h
      have hd : data' = data.set itemIdx r' := by
        have := h
        simp only [Option.map_some] at this
        exact (Option.some.injEq _ _ ▸ this.symm : _)
      have hidx : itemIdx < data.length := by
        by_contra hge
        rw [List.get?_eq_getElem?, List.getElem?_eq_none (Nat.le_of_not_lt hge)] at hr
        exact absurd hr (by simp)
      subst hd
      refine ⟨?_, ?_, ?_⟩
      · rw [readItemPath, get?_set_self data itemIdx r' hidx, Option.some_bind]
        exact updateNested_read v path r r' hu
      · intro j hj
        exact get?_set_other data itemIdx j r' (fun hh => hj hh.symm)
      · intro q hpq hqp
        rw [readItemPath, readItemPath, hr, get?_set_self data itemIdx r' hidx,
          Option.some_bind, Option.some_bind]
        exact updateNested_frame v path r r' hu q hpq hqp

/-- Witness for `updateNestedValue_locality`: writing "C" at path ["name"]
of the first row, the written field reads back "C", and the untouched
sibling field "url" is unchanged. -/
theorem updateNestedValue_locality_witness :
    updateNestedValue [.obj [("name", .str "A"), ("url", .str "a.png")]] 0 ["name"]
        (.str "C") = some [.obj [("name", .str "C"), ("url", .str "a.png")]] ∧
      readItemPath [.obj [("name", .str "C"), ("url", .str "a.png")]] 0 ["name"]
        = some (.str "C") ∧
      readItemPath [.obj [("name", .str "C"), ("url", .str "a.png")]] 0 ["url"]
        = readItemPath [.obj [("name", .str "A"), ("url", .str "a.png")]] 0 ["url"] :=
  have h : updateNestedValue [.obj [("name", .str "A"), ("url", .str "a.png")]] 0 ["name"]
      (.str "C") = some [.obj [("name", .str "C"), ("url", .str "a.png")]] := by decide
  ⟨h,
    (updateNestedValue_locality _ _ 0 ["name"] (.str "C") h).1,
    (updateNestedValue_locality _ _ 0 ["name"] (.str "C") h).2.2 ["url"] (by decide)
      (by decide)⟩

/-! ### The scanner and the two-tier decoder -/

/-- A declaration's shape as the scanner's loop tests it: an
`ArrayExpression` together with its source slice (`source.slice(start, end)`
of page.tsx lines 71 and 80), or anything else (including an absent
initializer). -/
inductive DeclKind where
  | arrayLit : String → DeclKind
  | otherDecl : DeclKind
deriving DecidableEq

/-- One declarator of a variable declaration: whether its id is a plain
`Identifier`, that identifier's name, and the initializer's shape. -/
structure VarDecl where
  idIsIdentifier : Bool
  idName : String
  init : DeclKind
deriving DecidableEq

/-- One top-level statement of the module's syntax tree
(`ast.program.body`, page.tsx line 68), reduced to the shapes the scanner
distinguishes: a default-export declaration, a named export carrying a
variable declaration's declarators (or `none` for other named exports),
and every other statement — imports, plain statements, function
declarations — as `other`, carrying the source text of any array literals
nested inside it (which the scanner never inspects). -/
inductive Stmt where
  | exportDefault : DeclKind → Stmt
  | exportNamed : Option (List VarDecl) → Stmt
  | other : List String → Stmt
deriving DecidableEq

/-- The declarator loop of page.tsx lines 78-84: the first declarator with
an array-literal initializer and an identifier id yields its slice and
name. -/
def findDeclSlice : List VarDecl → Option (String × String)
  | [] => none
  | d :: ds =>
    match d.init with
    | .arrayLit s => if d.idIsIdentifier then some (s, d.idName) else findDeclSlice ds
    | .otherDecl => findDeclSlice ds

/-- The statement loop of page.tsx lines 68-88, carrying the running
`arraySlice` and `foundExportName`. JavaScript truthiness: an empty
`arraySlice` means "nothing found yet" (line 87's `if (arraySlice) break`
and line 90's `if (!arraySlice) throw`). -/
def scanLoop : List Stmt → String → String → String × String
  | [], slice, name => (slice, name)
  | stmt :: rest, slice, name =>
    match stmt with
    | .exportDefault (.arrayLit s) => (s, "defaultExport")
    | .exportDefault .otherDecl =>
      if slice ≠ "" then (slice, name) else scanLoop rest slice name
    | .exportNamed none =>
      if slice ≠ "" then (slice, name) else scanLoop rest slice name
    | .exportNamed (some decls) =>
      match findDeclSlice decls with
      | some (s, n) => if s ≠ "" then (s, n) else scanLoop rest s n
      | none => if slice ≠ "" then (slice, name) else scanLoop rest slice name
    | .other _ =>
      if slice ≠ "" then (slice, name) else scanLoop rest slice name

/-- Lines 64-90: run the loop with an empty accumulator and the captured
export name; an empty final slice is line 90's NoExportedArray throw. -/
def scanExportedArray (name0 : String) (body : List Stmt) : Option (String × String) :=
  let p := scanLoop body "" name0
  if p.1 ≠ "" then some p else none

/-- The component state cells the parser and the editors touch
(page.tsx lines 38-43): the rows, the export name, the quoting flag, the
retained import header and the user-visible error message. -/
structure EditorState where
  data : List LiteralValue
  exportName : String
  quotedKeys : Bool
  originalImports : String
  error : String
deriving DecidableEq

/-- JavaScript's word character class (the `\w` of the regex at lines
99/110). -/
def isWordChar (c : Char) : Bool := c.isAlphanum || c = '_'

/-- JavaScript's whitespace class `\s` (its ASCII part, enough here). -/
def isSpaceChar (c : Char) : Bool :=
  c = ' ' || c = '\t' || c = '\n' || c = '\r' || c = Char.ofNat 11 || c = Char.ofNat 12

/-- After the quote and the word characters: optional whitespace, then a
colon. -/
def qkSpacesColon : List Char → Bool
  | ':' :: _ => true
  | c :: rest => if isSpaceChar c then qkSpacesColon rest else false
  | [] => false

/-- Inside the quoted word: more word characters until the closing quote. -/
def qkWordTail : List Char → Bool
  | '"' :: rest => qkSpacesColon rest
  | c :: rest => isWordChar c && qkWordTail rest
  | [] => false

/-- Right after an opening quote: at least one word character. -/
def qkAfterQuote : List Char → Bool
  | c :: rest => isWordChar c && qkWordTail rest
  | [] => false

/-- Search for a match of `"\w+"\s*:` starting at any position. -/
def qkSearch : List Char → Bool
  | [] => false
  | '"' :: rest => qkAfterQuote rest || qkSearch rest
  | _ :: rest => qkSearch rest

/-- The quoting-style regex test `/"\w+"\s*:/.test(arraySlice)` of page.tsx
lines 99 and 110. -/
def hasQuotedKey (s : String) : Bool := qkSearch s.data

/-- The claim's stricter reading, written from its words: a double-quoted
word immediately followed by a colon, no whitespace in between. -/
def qkImmediateTail : List Char → Bool
  | '"' :: ':' :: _ => true
  | c :: rest => isWordChar c && qkImmediateTail rest
  | [] => false

/-- Immediately after an opening quote, for the claim's reading. -/
def qkImmediateAfter : List Char → Bool
  | c :: rest => isWordChar c && qkImmediateTail rest
  | [] => false

/-- Search for a double-quoted key immediately followed by a colon. -/
def qkImmediate : List Char → Bool
  | [] => false
  | '"' :: rest => qkImmediateAfter rest || qkImmediate rest
  | _ :: rest => qkImmediate rest

/-- The two external parsers the decoder calls, as explicit arguments: the
JSON5 library's `parse` and `safeEval`'s Function-constructor evaluation
(page.tsx lines 23-27) — host behavior, not code of this repository.
`Except.error` is a thrown exception carrying its message. -/
structure DecodeTiers where
  json5 : String → Except String LiteralValue
  evalFB : String → Except String LiteralValue

/-- The fallback of page.tsx lines 106-112: evaluate the slice; an array
becomes the new document (with the quoting flag inferred from the slice), a
non-array result throws "Export is not an array", and a thrown evaluation
error reaches the same outer catch; either throw lands in line 113's catch,
which stores `"Failed to parse file: " ++ message` and reports failure. -/
def decodeTier2 (t : DecodeTiers) (st : EditorState) (slice : String) :
    EditorState × Bool :=
  match t.evalFB slice with
  | .ok (.arr l) =>
    ({ st with data := l, quotedKeys := hasQuotedKey slice, error := "" }, true)
  | .ok _ =>
    ({ st with error := "Failed to parse file: Export is not an array" }, false)
  | .error msg =>
    ({ st with error := "Failed to parse file: " ++ msg }, false)

/-- The decode of page.tsx lines 94-112. Tier 1 parses the slice wrapped in
parentheses through JSON5, inside a try whose catch (line 102) falls
through to tier 2 — so a tier-1 success with a non-array result, which
throws "Export is not an array" inside that same try, also falls through to
tier 2 rather than failing the load. -/
def decodeSlice (t : DecodeTiers) (st : EditorState) (slice : String) :
    EditorState × Bool :=
  match t.json5 ("(" ++ slice ++ ")") with
  | .ok (.arr l) =>
    ({ st with data := l, quotedKeys := hasQuotedKey slice, error := "" }, true)
  | _ => decodeTier2 t st slice

/-- The module as the scanner sees it: the lines the import regex of line
54 matched, and the top-level statements of the syntax tree (producing
both from raw text is the job of the string regex and the Babel parser,
external to this repository). -/
structure ModuleAst where
  importLines : List String
  body : List Stmt

/-- `parseDataFile` (page.tsx 51-118). `capturedExportName` is the
`exportName` the callback closed over at line 65. The state updates follow
source order: `setOriginalImports` (line 55) before any scanning,
`setExportName` (line 92) once a slice is found and before decoding, the
document fields only on a decode success, and the catch of line 113 on any
failure. -/
def parseDataFile (t : DecodeTiers) (capturedExportName : String) (st : EditorState)
    (m : ModuleAst) : EditorState × Bool :=
  let st1 := { st with originalImports := joinSep "\n" m.importLines }
  match scanExportedArray capturedExportName m.body with
  | none =>
    ({ st1 with error := "Failed to parse file: No exported array found." }, false)
  | some (slice, name) => decodeSlice t { st1 with exportName := name } slice

/-- A previously loaded document state, used as the concrete prior state. -/
def stPrior : EditorState :=
  { data := [.str "old"], exportName := "olddata", quotedKeys := true,
    originalImports := "import old from \"./old\"", error := "" }

/-- Tiers where both external parsers throw. -/
def tiersFailAll : DecodeTiers :=
  { json5 := fun _ => .error "json5 fail", evalFB := fun _ => .error "eval fail" }

/-- Tiers where tier 1 parses to a non-array and tier 2 yields an array. -/
def tiersT1NonArray : DecodeTiers :=
  { json5 := fun _ => .ok (.num 1), evalFB := fun _ => .ok (.arr [.num 7]) }

/-- Tiers where tier 1 throws and tier 2 yields an array (the everyday
path: JSON5 cannot parse the parenthesized slice). -/
def tiersEvalArr : DecodeTiers :=
  { json5 := fun _ => .error "invalid character at 1", evalFB := fun _ => .ok (.arr []) }

/-- C3 counterexample: a load that fails in the scanner (no exported array)
has already overwritten `originalImports` with the new source's import
lines — the previously loaded document state is not left entirely
unchanged. -/
theorem parseDataFile_failure_mutates_imports :
    (parseDataFile tiersFailAll "data" stPrior
        ⟨["import x from \"y\""], [.other ["[1, 2]"]]⟩).2 = false ∧
      (parseDataFile tiersFailAll "data" stPrior
          ⟨["import x from \"y\""], [.other ["[1, 2]"]]⟩).1.originalImports
        = "import x from \"y\"" ∧
      stPrior.originalImports ≠ "import x from \"y\"" :=
  ⟨rfl, rfl, by decide⟩

theorem decodeTier2_failure (t : DecodeTiers) (st : EditorState) (slice : String)
    (h : (decodeTier2 t st slice).2 = false) :
    (decodeTier2 t st slice).1.data = st.data ∧
      (decodeTier2 t st slice).1.quotedKeys = st.quotedKeys ∧
      (decodeTier2 t st slice).1.originalImports = st.originalImports ∧
      (decodeTier2 t st slice).1.exportName = st.exportName := by
  unfold decodeTier2 at *
  revert h
  cases t.evalFB slice with
  | ok v =>
    cases v with
    | arr l => intro h; exact Bool.noConfusion h
    | null => intro _; exact ⟨rfl, rfl, rfl, rfl⟩
    | bool b => intro _; exact ⟨rfl, rfl, rfl, rfl⟩
    | num i => intro _; exact ⟨rfl, rfl, rfl, rfl⟩
    | str s => intro _; exact ⟨rfl, rfl, rfl, rfl⟩
    | obj kvs => intro _; exact ⟨rfl, rfl, rfl, rfl⟩
  | error msg =>
    intro _
    exact ⟨rfl, rfl, rfl, rfl⟩

theorem decodeSlice_failure (t : DecodeTiers) (st : EditorState) (slice : String)
    (h : (decodeSlice t st slice).2 = false) :
    (decodeSlice t st slice).1.data = st.data ∧
      (decodeSlice t st slice).1.quotedKeys = st.quotedKeys ∧
      (decodeSlice t st slice).1.originalImports = st.originalImports ∧
      (decodeSlice t st slice).1.exportName = st.exportName := by
  unfold decodeSlice at *
  revert h
  cases t.json5 ("(" ++ slice ++ ")") with
  | ok v =>
    cases v with
    | arr l => intro h; exact Bool.noConfusion h
    | null => intro h; exact decodeTier2_failure t st slice h
    | bool b => intro h; exact decodeTier2_failure t st slice h
    | num i => intro h; exact decodeTier2_failure t st slice h
    | str s => intro h; exact decodeTier2_failure t st slice h
    | obj kvs => intro h; exact decodeTier2_failure t st slice h
  | error msg =>
    intro h
    exact decodeTier2_failure t st slice h

/-- C3 (amended): on every failed load the document rows and the quoting
flag are unchanged, but `originalImports` has already been overwritten with
the new source's import lines; and `exportName` is untouched only when the
scanner itself failed — when a slice was found and decoding failed,
`exportName` has been overwritten with the matched binding's name. -/
theorem parseDataFile_failure_partial_state (t : DecodeTiers) (cap : String)
    (st : EditorState) (m : ModuleAst)
    (h : (parseDataFile t cap st m).2 = false) :
    (parseDataFile t cap st m).1.data = st.data ∧
      (parseDataFile t cap st m).1.quotedKeys = st.quotedKeys ∧
      (parseDataFile t cap st m).1.originalImports = joinSep "\n" m.importLines ∧
      (scanExportedArray cap m.body = none →
        (parseDataFile t cap st m).1.exportName = st.exportName) ∧
      (∀ slice name, scanExportedArray cap m.body = some (slice, name) →
        (parseDataFile t cap st m).1.exportName = name) := by
  unfold parseDataFile at *
  cases hscan : scanExportedArray cap m.body with
  | none =>
    exact ⟨rfl, rfl, rfl, fun _ => rfl, fun s n hn => by simp [hscan] at hn⟩
  | some p =>
    obtain ⟨slice, name⟩ := p
    rw [hscan] at h
    have hf := decodeSlice_failure t
      { st with originalImports := joinSep "\n" m.importLines, exportName := name }
      slice h
    refine ⟨hf.1, hf.2.1, hf.2.2.1, fun hn => by simp [hscan] at hn, ?_⟩
    intro s n hn
    have hp : (slice, name) = (s, n) := Option.some.inj hn
    injection hp with h1 h2
    subst h2
    exact hf.2.2.2

/-- Witness for `parseDataFile_failure_partial_state` at the concrete
failing load of the counterexample. -/
theorem parseDataFile_failure_partial_state_witness :
    (parseDataFile tiersFailAll "data" stPrior
        ⟨["import x from \"y\""], [.other ["[1, 2]"]]⟩).2 = false ∧
      (parseDataFile tiersFailAll "data" stPrior
          ⟨["import x from \"y\""], [.other ["[1, 2]"]]⟩).1.data = stPrior.data ∧
      (parseDataFile tiersFailAll "data" stPrior
          ⟨["import x from \"y\""], [.other ["[1, 2]"]]⟩).1.quotedKeys
        = stPrior.quotedKeys :=
  have h : (parseDataFile tiersFailAll "data" stPrior
      ⟨["import x from \"y\""], [.other ["[1, 2]"]]⟩).2 = false := rfl
  ⟨h,
    (parseDataFile_failure_partial_state tiersFailAll "data" stPrior _ h).1,
    (parseDataFile_failure_partial_state tiersFailAll "data" stPrior _ h).2.1⟩

/-- C4 counterexample: when tier 1 parses successfully but its top-level
result is not an array, the decoder does not fail with NotAnArray — the
"Export is not an array" throw is swallowed by the catch of line 102, tier
2 is retried, and (here succeeding with an array) the load succeeds with
tier 2's value. -/
theorem decode_tier1_nonarray_retried :
    (decodeSlice tiersT1NonArray stPrior "[1]").2 = true ∧
      (decodeSlice tiersT1NonArray stPrior "[1]").1.error = "" ∧
      (decodeSlice tiersT1NonArray stPrior "[1]").1.data = [.num 7] :=
  ⟨rfl, rfl, rfl⟩

/-- C4 (amended): whenever tier 1 does not produce an array — it failed to
parse, or parsed to a non-array top-level value, both caught alike — the
outcome is entirely tier 2's: an array decodes successfully, its value
installed; a non-array fails with the NotAnArray message; a throw fails
with DecodeFailure carrying tier 2's diagnostic. -/
theorem decode_tiering (t : DecodeTiers) (st : EditorState) (slice : String)
    (h : ∀ l, t.json5 ("(" ++ slice ++ ")") ≠ .ok (.arr l)) :
    decodeSlice t st slice = decodeTier2 t st slice ∧
      (∀ l, t.evalFB slice = .ok (.arr l) →
        decodeSlice t st slice
          = ({ st with data := l, quotedKeys := hasQuotedKey slice, error := "" }, true)) ∧
      (∀ v, t.evalFB slice = .ok v → (∀ l, v ≠ .arr l) →
        decodeSlice t st slice
          = ({ st with error := "Failed to parse file: Export is not an array" }, false)) ∧
      (∀ msg, t.evalFB slice = .error msg →
        decodeSlice t st slice
          = ({ st with error := "Failed to parse file: " ++ msg }, false)) := by
  have h1 : decodeSlice t st slice = decodeTier2 t st slice := by
    unfold decodeSlice
    cases hj : t.json5 ("(" ++ slice ++ ")") with
    | ok v =>
      cases v with
      | arr l => exact absurd hj (h l)
      | null => rfl
      | bool b => rfl
      | num i => rfl
      | str s => rfl
      | obj kvs => rfl
    | error msg => rfl
  refine ⟨h1, ?_, ?_, ?_⟩
  · intro l he
    rw [h1]
    unfold decodeTier2
    rw [he]
  · intro v he hv
    rw [h1]
    unfold decodeTier2
    rw [he]
    cases v with
    | arr l => exact absurd rfl (hv l)
    | null => rfl
    | bool b => rfl
    | num i => rfl
    | str s => rfl
    | obj kvs => rfl
  · intro msg he
    rw [h1]
    unfold decodeTier2
    rw [he]

/-- Witness for `decode_tiering`: with both external parsers throwing, the
load fails with tier 2's diagnostic in the user-visible message. -/
theorem decode_tiering_witness :
    (∀ l, tiersFailAll.json5 ("(" ++ "[1]" ++ ")") ≠ .ok (.arr l)) ∧
      decodeSlice tiersFailAll stPrior "[1]"
        = ({ stPrior with error := "Failed to parse file: eval fail" }, false) :=
  have hne : ∀ l, tiersFailAll.json5 ("(" ++ "[1]" ++ ")") ≠ Except.ok (.arr l) :=
    fun _ hh => Except.noConfusion hh
  ⟨hne, (decode_tiering tiersFailAll stPrior "[1]" hne).2.2.2 "eval fail" rfl⟩

/-- C9 counterexample: the slice `[{"a" : 1}]` contains no double-quoted
key immediately followed by a colon (there is whitespace between), yet the
regex of lines 99/110 permits whitespace before the colon, so a successful
load sets quotedKeys to true where the claim's reading says false. -/
theorem quotedKeys_not_immediate_counterexample :
    (decodeSlice tiersEvalArr stPrior ("[\x7b\"a\" : 1\x7d]")).2 = true ∧
      (decodeSlice tiersEvalArr stPrior ("[\x7b\"a\" : 1\x7d]")).1.quotedKeys = true ∧
      qkImmediate (("[\x7b\"a\" : 1\x7d]" : String).data) = false :=
  ⟨rfl, rfl, by decide⟩

/-- C9 (amended): on every successful decode — whichever tier succeeded —
quotedKeys is set to the same regex test on the slice: a double-quoted run
of word characters, then optional whitespace, then a colon, anywhere in the
slice (also inside string values; the regex knows nothing of keys). -/
theorem quotedKeys_uniform (t : DecodeTiers) (st : EditorState) (slice : String)
    (h : (decodeSlice t st slice).2 = true) :
    (decodeSlice t st slice).1.quotedKeys = hasQuotedKey slice := by
  unfold decodeSlice decodeTier2 at *
  revert h
  cases t.json5 ("(" ++ slice ++ ")") with
  | ok v =>
    cases v with
    | arr l => intro _; rfl
    | null =>
      cases t.evalFB slice with
      | ok w => cases w <;> first | (intro _; rfl) | (intro h; exact Bool.noConfusion h)
      | error msg => intro h; exact Bool.noConfusion h
    | bool b =>
      cases t.evalFB slice with
      | ok w => cases w <;> first | (intro _; rfl) | (intro h; exact Bool.noConfusion h)
      | error msg => intro h; exact Bool.noConfusion h
    | num i =>
      cases t.evalFB slice with
      | ok w => cases w <;> first | (intro _; rfl) | (intro h; exact Bool.noConfusion h)
      | error msg => intro h; exact Bool.noConfusion h
    | str s =>
      cases t.evalFB slice with
      | ok w => cases w <;> first | (intro _; rfl) | (intro h; exact Bool.noConfusion h)
      | error msg => intro h; exact Bool.noConfusion h
    | obj kvs =>
      cases t.evalFB slice with
      | ok w => cases w <;> first | (intro _; rfl) | (intro h; exact Bool.noConfusion h)
      | error msg => intro h; exact Bool.noConfusion h
  | error msg =>
    cases t.evalFB slice with
    | ok w => cases w <;> first | (intro _; rfl) | (intro h; exact Bool.noConfusion h)
    | error m2 => intro h; exact Bool.noConfusion h

/-- Witness for `quotedKeys_uniform`: a tier-2 success on a slice with no
quoted key sets quotedKeys to false, overwriting the prior true. -/
theorem quotedKeys_uniform_witness :
    (decodeSlice tiersEvalArr stPrior "[1]").2 = true ∧
      (decodeSlice tiersEvalArr stPrior "[1]").1.quotedKeys = hasQuotedKey "[1]" :=
  ⟨rfl, quotedKeys_uniform tiersEvalArr stPrior "[1]" rfl⟩

/-- C2 (code_bug evidence): `safeEval` is `new Function(...)` — full
JavaScript evaluation with no literal-only restriction anywhere in the
decode path. Whatever value the host evaluation of the non-literal slice
`[Date.now()]` produces (a host-level call, returning the clock), the
decoder installs it and reports success instead of failing closed with
DecodeFailure: acceptance depends only on the evaluation's result, never
on the slice being literal-only. -/
theorem safeEval_unrestricted_accepts (ts : Int) :
    (decodeSlice
      { json5 := fun _ => .error "invalid character at 1",
        evalFB := fun _ => .ok (.arr [.num ts]) }
      stPrior "[Date.now()]").2 = true ∧
      (decodeSlice
        { json5 := fun _ => .error "invalid character at 1",
          evalFB := fun _ => .ok (.arr [.num ts]) }
        stPrior "[Date.now()]").1.data = [.num ts] :=
  ⟨rfl, rfl⟩

/-- Written from spec section 4.1: accept the first top-level statement
that is (a) a default export whose declaration is an array literal — name
bound to the fixed sentinel — or (b) a named export of a variable
declaration with an array-literal initializer and identifier id — name
bound to that identifier. Statements of any other shape, and whatever
array literals they nest, are passed over; no match is `NoExportedArray`. -/
def firstQualifying : List Stmt → Option (String × String)
  | [] => none
  | .exportDefault (.arrayLit s) :: _ => some (s, "defaultExport")
  | .exportNamed (some decls) :: rest =>
    match findDeclSlice decls with
    | some sn => some sn
    | none => firstQualifying rest
  | _ :: rest => firstQualifying rest

/-- An array-literal declarator has nonempty source text. -/
def wfDecl (d : VarDecl) : Bool :=
  match d.init with
  | .arrayLit s => s != ""
  | .otherDecl => true

/-- Every array literal of a statement has nonempty source text — true of
every real syntax tree, since an ArrayExpression spans at least its two
brackets. -/
def wfStmt : Stmt → Bool
  | .exportDefault (.arrayLit s) => s != ""
  | .exportNamed (some decls) => decls.all wfDecl
  | _ => true

/-- Well-formed slices across a whole body. -/
def wfSlices (body : List Stmt) : Bool := body.all wfStmt

theorem findDeclSlice_nonempty (decls : List VarDecl) (hwf : decls.all wfDecl = true) :
    ∀ s n, findDeclSlice decls = some (s, n) → s ≠ "" := by
  induction decls with
  | nil => intro s n h; exact absurd h (by simp [findDeclSlice])
  | cons d ds ih =>
    intro s n h
    simp only [List.all_cons, Bool.and_eq_true] at hwf
    unfold findDeclSlice at h
    cases hd : d.init with
    | arrayLit s0 =>
      rw [hd] at h
      by_cases hid : d.idIsIdentifier = true
      · simp only [hid, if_true, Option.some.injEq] at h
        have hs0 : s0 ≠ "" := by
          have := hwf.1
          unfold wfDecl at this
          rw [hd] at this
          simpa [bne_iff_ne] using this
        have : s0 = s := congrArg Prod.fst h
        exact this ▸ hs0
      · simp only [Bool.not_eq_true] at hid
        rw [hid] at h
        simp only [Bool.false_eq_true, if_false] at h
        exact ih hwf.2 s n h
    | otherDecl =>
      rw [hd] at h
      exact ih hwf.2 s n h

theorem scan_eq_firstQualifying (cap : String) :
    ∀ body : List Stmt, wfSlices body = true →
      scanExportedArray cap body = firstQualifying body := by
  intro body
  induction body with
  | nil => intro _; rfl
  | cons stmt rest ih =>
    intro hwf
    simp only [wfSlices, List.all_cons, Bool.and_eq_true] at hwf
    have ih' := ih hwf.2
    cases stmt with
    | exportDefault dk =>
      cases dk with
      | arrayLit s =>
        have hs : s ≠ "" := by
          have := hwf.1
          unfold wfStmt at this
          simpa [bne_iff_ne] using this
        unfold scanExportedArray scanLoop
        simp [hs, firstQualifying]
      | otherDecl =>
        unfold scanExportedArray scanLoop
        simp only [ne_eq, not_true_eq_false, if_false, reduceIte]
        unfold scanExportedArray at ih'
        rw [show firstQualifying (.exportDefault .otherDecl :: rest)
            = firstQualifying rest from rfl]
        exact ih'
    | exportNamed od =>
      cases od with
      | none =>
        unfold scanExportedArray scanLoop
        simp only [ne_eq, not_true_eq_false, if_false, reduceIte]
        unfold scanExportedArray at ih'
        rw [show firstQualifying (.exportNamed none :: rest)
            = firstQualifying rest from rfl]
        exact ih'
      | some decls =>
        cases hfd : findDeclSlice decls with
        | some sn =>
          obtain ⟨s, n⟩ := sn
          have hs : s ≠ "" := findDeclSlice_nonempty decls
            (by simpa [wfStmt] using hwf.1) s n hfd
          unfold scanExportedArray scanLoop
          dsimp only
          rw [hfd]
          simp [hs, firstQualifying, hfd]
        | none =>
          unfold scanExportedArray scanLoop
          dsimp only
          rw [hfd]
          simp only [ne_eq, not_true_eq_false, if_false, reduceIte]
          unfold scanExportedArray at ih'
          rw [show firstQualifying (.exportNamed (some decls) :: rest)
              = match findDeclSlice decls with
                | some sn => some sn
                | none => firstQualifying rest from rfl,
            hfd]
          exact ih'
    | other junk =>
      unfold scanExportedArray scanLoop
      simp only [ne_eq, not_true_eq_false, if_false, reduceIte]
      unfold scanExportedArray at ih'
      rw [show firstQualifying (.other junk :: rest) = firstQualifying rest from rfl]
      exact ih'

/-- C7: given that every array literal's slice is nonempty (true of every
real syntax tree), the scanner's walk over the top-level statements equals
the spec's first-match rule `firstQualifying` — so with two qualifying
exported arrays the first in source order wins; a statement of any other
shape is passed over whatever array literals it nests (`Stmt.other`
carries them and `firstQualifying` never reads them); and when no
statement qualifies, `parseDataFile` fails with the NoExportedArray
message. -/
theorem scanner_first_match (t : DecodeTiers) (cap : String) (st : EditorState)
    (m : ModuleAst) (h : wfSlices m.body = true) :
    scanExportedArray cap m.body = firstQualifying m.body ∧
      (∀ nested rest, firstQualifying (.other nested :: rest) = firstQualifying rest) ∧
      (firstQualifying m.body = none →
        (parseDataFile t cap st m).2 = false ∧
          (parseDataFile t cap st m).1.error
            = "Failed to parse file: No exported array found.") := by
  have h1 := scan_eq_firstQualifying cap m.body h
  refine ⟨h1, fun _ _ => rfl, fun hnone => ?_⟩
  unfold parseDataFile
  rw [h1, hnone]
  exact ⟨rfl, rfl⟩

/-- A module body with a nested array literal in a non-export statement,
then a qualifying named export, then a qualifying default export. -/
def demoBody : List Stmt :=
  [.other ["[9]"],
   .exportNamed (some [⟨true, "items", .arrayLit "[1, 2]"⟩]),
   .exportDefault (.arrayLit "[3]")]

/-- Witness for `scanner_first_match`: of the two qualifying exports of
`demoBody` the scanner binds the first, ignoring the nested literal before
it. -/
theorem scanner_first_match_witness :
    wfSlices demoBody = true ∧
      scanExportedArray "data" demoBody = some ("[1, 2]", "items") :=
  ⟨by decide, by
    have h := (scanner_first_match tiersFailAll "data" stPrior ⟨[], demoBody⟩
      (by decide)).1
    rw [h]
    rfl⟩
